import Mathlib

/-!
Verification of the bigram language model core of `makemore-rs`.

The development shallowly embeds the counting, vocabulary, normalization and
sampling code of `src/bigrams.rs` and `src/vocabulary.rs` (plus the
name-generation loop of `examples/bigrams_sample.rs`).  Strings are modelled
as `List Char` (every token in the source is a single-character `String`),
the `f32` tensors as exact rational matrices, hashmaps as association lists
in which a later insertion overwrites an earlier one, and the random number
stream as an explicit `ℕ → ℚ` argument.
-/

/-- Boundary token `"."` used by the model to wrap every name. -/
def boundary : Char := '.'

/-- Mirrors `BigramModel::tokenize`: the characters of a name wrapped with the
boundary token on both sides. -/
def tokenize (chars : List Char) : List Char :=
  boundary :: (chars ++ [boundary])

/-- Consecutive token pairs of one name, as produced by
`tokens.windows(2)` and by `tokens.clone().zip(tokens.skip(1))`. -/
def bigramsOf (name : List Char) : List (Char × Char) :=
  (tokenize name).zip (tokenize name).tail

/-- Every bigram pair contributed by a corpus, in corpus order. -/
def allBigrams (names : List (List Char)) : List (Char × Char) :=
  names.flatMap bigramsOf

/-- Mirrors `BigramModel::compute_bigram_counts`: the hashmap entry of a pair
is the number of occurrences of the pair among the bigrams of the corpus; an
absent entry reads as `0`. -/
def compute_bigram_counts (names : List (List Char)) (q : Char × Char) : ℕ :=
  (allBigrams names).countP (fun a => decide (a = q))

/-- Total number of characters across all strings of the corpus. -/
def totalChars (names : List (List Char)) : ℕ :=
  (names.map List.length).sum

/-- The comparator of `Vocabulary::build_chars`'s `sort_by`, read as a
`≤`-style relation: the boundary sorts before everything else, any other pair
of characters compares by code point. -/
def vle (a b : Char) : Prop :=
  a = boundary ∨ (b ≠ boundary ∧ a ≤ b)

instance : DecidableRel vle := fun a b =>
  decidable_of_iff (a = boundary ∨ (b ≠ boundary ∧ a ≤ b)) Iff.rfl

instance : IsTotal Char vle where
  total a b := by
    by_cases ha : a = boundary
    · exact Or.inl (Or.inl ha)
    · by_cases hb : b = boundary
      · exact Or.inr (Or.inl hb)
      · rcases le_total a b with h | h
        · exact Or.inl (Or.inr ⟨hb, h⟩)
        · exact Or.inr (Or.inr ⟨ha, h⟩)

instance : IsTrans Char vle where
  trans a b c hab hbc := by
    rcases hab with ha | ⟨hb, hab⟩
    · exact Or.inl ha
    · rcases hbc with hb' | ⟨hc, hbc⟩
      · exact absurd hb' hb
      · exact Or.inr ⟨hc, le_trans hab hbc⟩

/-- Mirrors `Vocabulary::build_chars`: the deduplicated characters of the
corpus with `"."` appended, sorted by the boundary-first comparator. -/
def build_chars (names : List (List Char)) : List Char :=
  List.insertionSort vle ((names.flatMap id).dedup ++ [boundary])

/-- Helper for `char_to_idx`: looks a character up in the hashmap collected
from the `(character, index)` pairs of the list, where a later pair
overwrites an earlier one; `k` is the index of the head of `l`. -/
def char_to_idx_aux (l : List Char) (k : ℕ) (c : Char) : Option ℕ :=
  match l with
  | [] => none
  | a :: rest =>
    match char_to_idx_aux rest (k + 1) c with
    | some i => some i
    | none => if c = a then some k else none

/-- Mirrors the `char_to_idx` hashmap built in `Vocabulary::new`. -/
def char_to_idx (chars : List Char) (c : Char) : Option ℕ :=
  char_to_idx_aux chars 0 c

/-- Cell `(i, j)` of the count tensor built by
`BigramModel::compute_tensor_frequencies`: the number of corpus bigrams whose
tokens are mapped to `i` and `j` by the vocabulary index map. -/
def tensorCount (chars : List Char) (names : List (List Char)) (i j : ℕ) : ℕ :=
  (allBigrams names).countP
    (fun q => decide (char_to_idx chars q.1 = some i ∧ char_to_idx chars q.2 = some j))

/-- Association-list lookup in which a later entry overwrites an earlier one,
modelling collection of an iterator of key-value pairs into a `HashMap`. -/
def assocLast {α β : Type} [DecidableEq α] : List (α × β) → α → Option β
  | [], _ => none
  | e :: rest, a =>
    match assocLast rest a with
    | some b => some b
    | none => if a = e.1 then some e.2 else none

/-- Mirrors `BigramModel::sync_counts_from_tensor`: the key-value pairs
inserted into the counts hashmap, scanning the strictly positive cells of the
count tensor in row-major order, keyed by the corresponding symbol pair. -/
def sync_counts_from_tensor (chars : List Char) (t : ℕ → ℕ → ℕ) :
    List ((Char × Char) × ℕ) :=
  (List.range chars.length).flatMap (fun i =>
    (List.range chars.length).filterMap (fun j =>
      if 0 < t i j then
        some ((chars.getD i boundary, chars.getD j boundary), t i j)
      else none))

/-- Reads a count out of a hashmap given as a key-value list; a missing key
reads as `0`. -/
def countsLookup (l : List ((Char × Char) × ℕ)) (q : Char × Char) : ℕ :=
  (assocLast l q).getD 0

/-- Row normalization performed by `BigramModel::compute_probabilities`
(`sum_keepdim(1)` then `broadcast_div`), with the `f32` tensor idealized as
exact rational arithmetic: each cell divided by the sum of its row. -/
def normalizeCounts (V : ℕ) (t : ℕ → ℕ → ℕ) (i j : ℕ) : ℚ :=
  (t i j : ℚ) / ∑ k ∈ Finset.range V, (t i k : ℚ)

/-- The mutable state of `BigramModel`: vocabulary, hashmap counts, optional
count tensor and optional probability tensor. -/
structure BigramModel where
  chars : List Char
  counts : List ((Char × Char) × ℕ)
  count_tensor : Option (ℕ → ℕ → ℕ)
  probabilities : Option (ℕ → ℕ → ℚ)

/-- Mirrors `BigramModel::new`: fresh vocabulary, empty counts, no tensors. -/
def BigramModel.new (names : List (List Char)) : BigramModel :=
  { chars := build_chars names
    counts := []
    count_tensor := none
    probabilities := none }

/-- True when every bigram token of the corpus is present in the vocabulary
map; a missing token makes the source's `char_to_idx[&window[k]]` panic. -/
def checkTokens (chars : List Char) (names : List (List Char)) : Bool :=
  (allBigrams names).all
    (fun q => (char_to_idx chars q.1).isSome && (char_to_idx chars q.2).isSome)

/-- Mirrors `BigramModel::compute_tensor_frequencies` followed by its
`sync_counts_from_tensor` call; `none` models the panic on a token that is
missing from the vocabulary map. -/
def compute_tensor_frequencies (m : BigramModel) (names : List (List Char)) :
    Option BigramModel :=
  if checkTokens m.chars names then
    some { m with
      count_tensor := some (tensorCount m.chars names)
      counts := sync_counts_from_tensor m.chars (tensorCount m.chars names) }
  else none

/-- Mirrors `BigramModel::compute_probabilities`: `none` models the
`unwrap` panic when no count tensor has been computed. -/
def compute_probabilities (m : BigramModel) : Option BigramModel :=
  match m.count_tensor with
  | none => none
  | some t => some { m with probabilities := some (normalizeCounts m.chars.length t) }

/-- Running cumulative sums of a weight list, starting from `s`. -/
def cumsumFrom (s : ℚ) : List ℚ → List ℚ
  | [] => []
  | x :: xs => (s + x) :: cumsumFrom (s + x) xs

/-- The cumulative-probability array built at the start of `multinomial`. -/
def cumsum (p : List ℚ) : List ℚ :=
  cumsumFrom 0 p

/-- Fuel-indexed core of Rust `slice::binary_search_by` as called in
`multinomial`: window `[left, right)`, returning either the position of an
entry equal to `r` or the insertion point. -/
def bsearchGo (cum : List ℚ) (r : ℚ) : ℕ → ℕ → ℕ → ℕ
  | 0, left, _ => left
  | fuel + 1, left, right =>
    if left < right then
      if cum.getD (left + (right - left) / 2) 0 < r then
        bsearchGo cum r fuel (left + (right - left) / 2 + 1) right
      else if r < cum.getD (left + (right - left) / 2) 0 then
        bsearchGo cum r fuel left (left + (right - left) / 2)
      else left + (right - left) / 2
    else left

/-- Rust `slice::binary_search_by` on the cumulative array (`Ok` and `Err`
results collapse to the contained index, exactly as the `match` in
`multinomial` does). -/
def rustBinarySearch (cum : List ℚ) (r : ℚ) : ℕ :=
  bsearchGo cum r cum.length 0 cum.length

/-- The per-draw mutable state of `multinomial`: the weight vector `p`, the
cumulative array and the running `sum` variable. -/
structure MState where
  p : List ℚ
  cum : List ℚ
  total : ℚ

/-- State at loop entry: cumulative sums and total built from the weights. -/
def initState (p : List ℚ) : MState :=
  { p := p, cum := cumsum p, total := p.sum }

/-- One iteration of the sampling loop of `multinomial`: draw
`r = u * sum`, binary-search the cumulative array, and without replacement
zero the selected weight and rebuild the cumulative array. -/
def drawOnce (st : MState) (u : ℚ) (replacement : Bool) : ℕ × MState :=
  let r := u * st.total
  let idx := rustBinarySearch st.cum r
  if replacement then (idx, st)
  else
    let p' := st.p.set idx 0
    (idx, { p := p', cum := cumsum p', total := st.total - st.p.getD idx 0 })

/-- The sampling loop of `multinomial`, consuming one uniform draw
`us 0, us 1, …` per iteration. -/
def multinomialAux (replacement : Bool) : ℕ → MState → (ℕ → ℚ) → List ℕ
  | 0, _, _ => []
  | n + 1, st, us =>
    let d := drawOnce st (us 0) replacement
    d.1 :: multinomialAux replacement n d.2 (fun k => us (k + 1))

/-- A weight tensor as accepted by `multinomial`: one-dimensional, or a
multi-row matrix. -/
inductive WTensor where
  | d1 (p : List ℚ)
  | d2 (rows : List (List ℚ))

/-- Mirrors the `flatten_all` applied by `multinomial` to an input of more
than one dimension. -/
def flattenAll : WTensor → List ℚ
  | .d1 p => p
  | .d2 rows => rows.flatten

/-- Mirrors `BigramModel::multinomial`: flatten the input, fail when drawing
more samples without replacement than the flattened length, and otherwise run
the sampling loop on the uniform draws `us`. -/
def multinomial (t : WTensor) (num_samples : ℕ) (replacement : Bool)
    (us : ℕ → ℚ) : Except String (List ℕ) :=
  let p := flattenAll t
  if !replacement && decide (p.length < num_samples) then
    .error "cannot sample that many items without replacement"
  else
    .ok (multinomialAux replacement num_samples (initState p) us)

/-- Number of strictly positive weights of a distribution. -/
def positiveCount (p : List ℚ) : ℕ :=
  p.countP (fun x => decide (0 < x))

/-- One step of the generation loop of `examples/bigrams_sample.rs`: a single
multinomial draw (with replacement) from the whole probability matrix,
reduced modulo the vocabulary size. -/
def genIx (P : List (List ℚ)) (u : ℚ) : ℕ :=
  (match multinomial (.d2 P) 1 true (fun _ => u) with
   | .ok l => l.headD 0
   | .error _ => 0) % P.length

/-- The index sampled at step `n` of the generation loop (each iteration
draws independently from the full matrix). -/
def genSeq (P : List (List ℚ)) (us : ℕ → ℚ) (n : ℕ) : ℕ :=
  genIx P (us n)

/-- The generation loop of `examples/bigrams_sample.rs`, run with at most
`fuel` iterations: pushes every sampled index (the terminating boundary
index included) and stops exactly when index `0` is sampled.  `none` means
the loop did not terminate within `fuel` iterations. -/
def genName (P : List (List ℚ)) : (ℕ → ℚ) → ℕ → Option (List ℕ)
  | _, 0 => none
  | us, fuel + 1 =>
    let ix := genIx P (us 0)
    if ix = 0 then some [ix]
    else (genName P (fun k => us (k + 1)) fuel).map (fun out => ix :: out)

/-! ### General counting lemmas -/

theorem bigramsOf_length (nm : List Char) :
    (bigramsOf nm).length = nm.length + 1 := by
  show ((boundary :: (nm ++ [boundary])).zip (nm ++ [boundary])).length
      = nm.length + 1
  rw [List.length_zip, min_eq_right (by simp only [List.length_cons,
    List.length_append, List.length_singleton]; omega)]
  simp

theorem allBigrams_length (names : List (List Char)) :
    (allBigrams names).length = totalChars names + names.length := by
  induction names with
  | nil => simp [allBigrams, totalChars]
  | cons nm rest ih =>
    have hsplit : allBigrams (nm :: rest) = bigramsOf nm ++ allBigrams rest := rfl
    rw [hsplit, List.length_append, bigramsOf_length, ih]
    simp only [totalChars, List.map_cons, List.sum_cons, List.length_cons]
    omega

theorem sum_countP_eq_length {α β : Type} [DecidableEq β] (l : List α)
    (f : α → β) (s : Finset β) (h : ∀ a ∈ l, f a ∈ s) :
    (∑ b ∈ s, l.countP (fun a => decide (f a = b))) = l.length := by
  induction l with
  | nil => simp
  | cons a l ih =>
    simp only [List.countP_cons]
    rw [Finset.sum_add_distrib]
    rw [ih (fun x hx => h x (List.mem_cons_of_mem a hx))]
    have hone : (∑ b ∈ s, if decide (f a = b) = true then 1 else 0) = 1 := by
      simp only [decide_eq_true_eq]
      rw [Finset.sum_ite_eq s (f a) (fun _ => 1)]
      simp [h a (List.mem_cons_self a l)]
    rw [hone, List.length_cons]

theorem mem_tokenize {c : Char} {nm : List Char} :
    c ∈ tokenize nm ↔ c = boundary ∨ c ∈ nm := by
  simp only [tokenize, List.mem_cons, List.mem_append, List.mem_singleton]
  tauto

theorem bigramsOf_mem {q : Char × Char} {nm : List Char}
    (h : q ∈ bigramsOf nm) :
    (q.1 = boundary ∨ q.1 ∈ nm) ∧ (q.2 = boundary ∨ q.2 ∈ nm) := by
  obtain ⟨a, b⟩ := q
  have := List.of_mem_zip h
  exact ⟨mem_tokenize.mp this.1, mem_tokenize.mp (List.mem_of_mem_tail this.2)⟩

theorem allBigrams_mem {chars : List Char} {names : List (List Char)}
    (hdot : boundary ∈ chars)
    (hmem : ∀ nm ∈ names, ∀ c ∈ nm, c ∈ chars) :
    ∀ q ∈ allBigrams names, q.1 ∈ chars ∧ q.2 ∈ chars := by
  intro q hq
  obtain ⟨nm, hnm, hqnm⟩ := List.mem_flatMap.mp hq
  obtain ⟨h1, h2⟩ := bigramsOf_mem hqnm
  constructor
  · rcases h1 with h | h
    · exact h ▸ hdot
    · exact hmem nm hnm _ h
  · rcases h2 with h | h
    · exact h ▸ hdot
    · exact hmem nm hnm _ h

/-! ### `char_to_idx` lemmas -/

theorem char_to_idx_aux_not_mem {l : List Char} {c : Char} (h : c ∉ l)
    (k : ℕ) : char_to_idx_aux l k c = none := by
  induction l generalizing k with
  | nil => rfl
  | cons a rest ih =>
    have hc : c ≠ a := fun hca => h (hca ▸ List.mem_cons_self a rest)
    have hr : c ∉ rest := fun hcr => h (List.mem_cons_of_mem a hcr)
    simp [char_to_idx_aux, ih hr, hc]

theorem char_to_idx_aux_mem {l : List Char} {c : Char} (h : c ∈ l) (k : ℕ) :
    ∃ i, char_to_idx_aux l k c = some i ∧ k ≤ i ∧ i < k + l.length := by
  induction l generalizing k with
  | nil => cases h
  | cons a rest ih =>
    by_cases hr : c ∈ rest
    · obtain ⟨i, hi, hki, hlt⟩ := ih hr (k + 1)
      refine ⟨i, ?_, by omega, ?_⟩
      · simp [char_to_idx_aux, hi]
      · simp only [List.length_cons]
        omega
    · have hc : c = a := by
        rcases List.mem_cons.mp h with h | h
        · exact h
        · exact absurd h hr
      subst hc
      refine ⟨k, ?_, le_refl k, ?_⟩
      · simp [char_to_idx_aux, char_to_idx_aux_not_mem hr]
      · simp only [List.length_cons]
        omega

theorem char_to_idx_aux_nodup {l : List Char} (hl : l.Nodup) {c : Char}
    (hc : c ∈ l) (k : ℕ) :
    char_to_idx_aux l k c = some (k + List.indexOf c l) := by
  induction l generalizing k with
  | nil => cases hc
  | cons a rest ih =>
    obtain ⟨ha, hrest⟩ := List.nodup_cons.mp hl
    by_cases hr : c ∈ rest
    · have hc' : c ≠ a := fun hca => ha (hca ▸ hr)
      rw [List.indexOf_cons_ne rest hc'.symm]
      simp only [char_to_idx_aux, ih hrest hr (k + 1)]
      congr 1
      omega
    · have hca : c = a := by
        rcases List.mem_cons.mp hc with h | h
        · exact h
        · exact absurd h hr
      subst hca
      rw [List.indexOf_cons_self]
      simp [char_to_idx_aux, char_to_idx_aux_not_mem hr]

theorem char_to_idx_nodup {l : List Char} (hl : l.Nodup) {c : Char}
    (hc : c ∈ l) : char_to_idx l c = some (List.indexOf c l) := by
  simpa using char_to_idx_aux_nodup hl hc 0

theorem char_to_idx_mem {l : List Char} {c : Char} (h : c ∈ l) :
    ∃ i, char_to_idx l c = some i ∧ i < l.length := by
  obtain ⟨i, hi, _, hlt⟩ := char_to_idx_aux_mem h 0
  exact ⟨i, hi, by omega⟩

/-! ### Claim C2: row-stochastic normalization -/

/-- C2: for every count matrix, every row of the probability matrix produced
by `compute_probabilities` whose count row has a non-zero sum sums to `1.0`
within a tolerance of `1e-5` (the `f32` arithmetic idealized as exact
rational arithmetic, where the sum is exactly `1`). -/
theorem claim2_row_stochastic (V : ℕ) (t : ℕ → ℕ → ℕ) (i : ℕ)
    (h : (∑ k ∈ Finset.range V, (t i k : ℚ)) ≠ 0) :
    |(∑ j ∈ Finset.range V, normalizeCounts V t i j) - 1| ≤ 1 / 100000 := by
  unfold normalizeCounts
  rw [← Finset.sum_div, div_self h]
  norm_num

/-- C2 witness: the single-row count matrix with one cell equal to `1`
normalizes to a row summing to `1` within the tolerance. -/
theorem claim2_row_stochastic_witness :
    |(∑ j ∈ Finset.range 1, normalizeCounts 1 (fun _ _ => 1) 0 j) - 1|
      ≤ 1 / 100000 :=
  claim2_row_stochastic 1 (fun _ _ => 1) 0 (by norm_num)

/-! ### Claim C7: empty strings -/

/-- C7: an empty string contributes exactly the single transition
boundary→boundary, and the corpus consisting of one empty string produces
counts (hashmap and tensor alike) that are `1` at the boundary-boundary cell
and `0` everywhere else. -/
theorem claim7_empty_string :
    bigramsOf [] = [(boundary, boundary)] ∧
    compute_bigram_counts [[]] (boundary, boundary) = 1 ∧
    (∀ q : Char × Char, q ≠ (boundary, boundary) →
      compute_bigram_counts [[]] q = 0) ∧
    tensorCount (build_chars [[]]) [[]] 0 0 = 1 ∧
    (∀ i j : ℕ, ¬(i = 0 ∧ j = 0) →
      tensorCount (build_chars [[]]) [[]] i j = 0) := by
  have hall : allBigrams [[]] = [(boundary, boundary)] := rfl
  have hbc : build_chars [[]] = [boundary] := by decide
  have hidx : char_to_idx [boundary] boundary = some 0 := rfl
  refine ⟨rfl, by decide, ?_, by decide, ?_⟩
  · intro q hq
    unfold compute_bigram_counts
    rw [hall]
    simp only [List.countP_cons, List.countP_nil, decide_eq_true_eq]
    simp [Ne.symm hq]
  · intro i j hij
    unfold tensorCount
    rw [hall, hbc]
    simp only [List.countP_cons, List.countP_nil, hidx, Option.some.injEq,
      decide_eq_true_eq]
    have hnot : ¬(0 = i ∧ 0 = j) :=
      fun hc => hij ⟨hc.1.symm, hc.2.symm⟩
    simp [hnot]

/-- C7 witness: the all-other-cells-are-zero statements evaluated at a
concrete non-boundary pair and a concrete non-zero cell. -/
theorem claim7_empty_string_witness :
    compute_bigram_counts [[]] ('a', 'b') = 0 ∧
    tensorCount (build_chars [[]]) [[]] 1 1 = 0 :=
  ⟨claim7_empty_string.2.2.1 ('a', 'b') (by decide),
   claim7_empty_string.2.2.2.2 1 1 (by omega)⟩

/-! ### Claim C8: flattening before sampling -/

/-- C8: `multinomial` applied to a multi-row weight tensor returns exactly
the result of `multinomial` applied to the row-major flattening of that
tensor, for every draw count, replacement mode and random stream. -/
theorem claim8_flatten_equivalence (rows : List (List ℚ)) (n : ℕ)
    (rep : Bool) (us : ℕ → ℚ) :
    multinomial (.d2 rows) n rep us = multinomial (.d1 rows.flatten) n rep us :=
  rfl

/-! ### Claim C10: compute_probabilities requires the count tensor -/

/-- C10: on a freshly constructed model `compute_probabilities` hits the
`unwrap` panic (modelled as `none`), and whenever
`compute_tensor_frequencies` succeeded the call succeeds. -/
theorem claim10_requires_tensor :
    (∀ names : List (List Char),
      compute_probabilities (BigramModel.new names) = none) ∧
    (∀ (m : BigramModel) (names : List (List Char)),
      ((compute_tensor_frequencies m names).all
        (fun m' => (compute_probabilities m').isSome)) = true) := by
  constructor
  · intro names
    rfl
  · intro m names
    unfold compute_tensor_frequencies
    by_cases h : checkTokens m.chars names
    · simp [h, compute_probabilities, Option.all]
    · simp [h, Option.all]

/-! ### Claim C1: count conservation -/

theorem hashmap_counts_sum (chars : List Char) (names : List (List Char))
    (hdot : boundary ∈ chars)
    (hmem : ∀ nm ∈ names, ∀ c ∈ nm, c ∈ chars) :
    (∑ q ∈ chars.toFinset ×ˢ chars.toFinset, compute_bigram_counts names q)
      = totalChars names + names.length := by
  rw [← allBigrams_length names]
  exact sum_countP_eq_length (allBigrams names) id
    (chars.toFinset ×ˢ chars.toFinset)
    (fun q hq => by
      obtain ⟨h1, h2⟩ := allBigrams_mem hdot hmem q hq
      exact Finset.mem_product.mpr ⟨List.mem_toFinset.mpr h1, List.mem_toFinset.mpr h2⟩)

theorem tensor_counts_sum (chars : List Char) (names : List (List Char))
    (hdot : boundary ∈ chars)
    (hmem : ∀ nm ∈ names, ∀ c ∈ nm, c ∈ chars) :
    (∑ ij ∈ Finset.range chars.length ×ˢ Finset.range chars.length,
        tensorCount chars names ij.1 ij.2)
      = totalChars names + names.length := by
  rw [← allBigrams_length names]
  have hcell : ∀ ij : ℕ × ℕ, tensorCount chars names ij.1 ij.2
      = (allBigrams names).countP (fun q =>
          decide (((char_to_idx chars q.1).getD 0, (char_to_idx chars q.2).getD 0) = ij)) := by
    intro ij
    unfold tensorCount
    refine List.countP_congr (fun q hq => ?_)
    obtain ⟨h1, h2⟩ := allBigrams_mem hdot hmem q hq
    obtain ⟨i1, hi1, _⟩ := char_to_idx_mem h1
    obtain ⟨i2, hi2, _⟩ := char_to_idx_mem h2
    simp only [decide_eq_true_eq, hi1, hi2, Option.getD_some, Option.some.injEq,
      Prod.ext_iff]
  calc (∑ ij ∈ Finset.range chars.length ×ˢ Finset.range chars.length,
          tensorCount chars names ij.1 ij.2)
      = ∑ ij ∈ Finset.range chars.length ×ˢ Finset.range chars.length,
          (allBigrams names).countP (fun q =>
            decide (((char_to_idx chars q.1).getD 0, (char_to_idx chars q.2).getD 0) = ij)) :=
        Finset.sum_congr rfl (fun ij _ => hcell ij)
    _ = (allBigrams names).length := by
        refine sum_countP_eq_length (allBigrams names)
          (fun q => ((char_to_idx chars q.1).getD 0, (char_to_idx chars q.2).getD 0))
          (Finset.range chars.length ×ˢ Finset.range chars.length)
          (fun q hq => ?_)
        obtain ⟨h1, h2⟩ := allBigrams_mem hdot hmem q hq
        obtain ⟨i1, hi1, hlt1⟩ := char_to_idx_mem h1
        obtain ⟨i2, hi2, hlt2⟩ := char_to_idx_mem h2
        refine Finset.mem_product.mpr ⟨?_, ?_⟩
        · simp [hi1, Finset.mem_range, hlt1]
        · simp [hi2, Finset.mem_range, hlt2]

/-- C1: for a corpus whose characters are all in the vocabulary, each string
of length `n` contributes exactly `n + 1` bigrams of its boundary-wrapped
token sequence, and the sum of all cells of the count matrix — hashmap-based
or tensor-based — equals the total character count plus the number of
strings. -/
theorem claim1_count_conservation (chars : List Char) (names : List (List Char))
    (hdot : boundary ∈ chars)
    (hmem : ∀ nm ∈ names, ∀ c ∈ nm, c ∈ chars) :
    (∀ nm : List Char, (bigramsOf nm).length = nm.length + 1) ∧
    (∑ q ∈ chars.toFinset ×ˢ chars.toFinset, compute_bigram_counts names q)
      = totalChars names + names.length ∧
    (∑ ij ∈ Finset.range chars.length ×ˢ Finset.range chars.length,
        tensorCount chars names ij.1 ij.2)
      = totalChars names + names.length :=
  ⟨bigramsOf_length, hashmap_counts_sum chars names hdot hmem,
    tensor_counts_sum chars names hdot hmem⟩

/-- C1 witness: the two-symbol vocabulary over the one-name corpus `["a"]`
has count cells summing to `1 + 1 = 2` under both counting strategies. -/
theorem claim1_count_conservation_witness :
    (∑ q ∈ (['.', 'a'] : List Char).toFinset ×ˢ (['.', 'a'] : List Char).toFinset,
        compute_bigram_counts [['a']] q) = totalChars [['a']] + 1 ∧
    (∑ ij ∈ Finset.range 2 ×ˢ Finset.range 2,
        tensorCount ['.', 'a'] [['a']] ij.1 ij.2) = totalChars [['a']] + 1 :=
  ⟨(claim1_count_conservation ['.', 'a'] [['a']] (by decide) (by decide)).2.1,
   (claim1_count_conservation ['.', 'a'] [['a']] (by decide) (by decide)).2.2⟩

/-! ### Claim C3: vocabulary construction -/

theorem build_chars_sorted (names : List (List Char)) :
    List.Sorted vle (build_chars names) :=
  List.sorted_insertionSort vle _

theorem build_chars_perm (names : List (List Char)) :
    (build_chars names).Perm ((names.flatMap id).dedup ++ [boundary]) :=
  List.perm_insertionSort vle _

theorem build_chars_mem (names : List (List Char)) (c : Char) :
    c ∈ build_chars names ↔ (c = boundary ∨ ∃ nm ∈ names, c ∈ nm) := by
  rw [(build_chars_perm names).mem_iff]
  simp only [List.mem_append, List.mem_dedup, List.mem_singleton,
    List.mem_flatMap, id_eq]
  constructor
  · rintro (⟨nm, hnm, hc⟩ | hb)
    · exact Or.inr ⟨nm, hnm, hc⟩
    · exact Or.inl hb
  · rintro (hb | ⟨nm, hnm, hc⟩)
    · exact Or.inr hb
    · exact Or.inl ⟨nm, hnm, hc⟩

theorem build_chars_nodup (names : List (List Char))
    (hnd : ∀ nm ∈ names, ∀ c ∈ nm, c ≠ boundary) :
    (build_chars names).Nodup := by
  rw [(build_chars_perm names).nodup_iff, List.nodup_append]
  refine ⟨List.nodup_dedup _, List.nodup_singleton _, ?_⟩
  intro c hc hcb
  rw [List.mem_singleton] at hcb
  subst hcb
  obtain ⟨nm, hnm, hcnm⟩ := List.mem_flatMap.mp (List.mem_dedup.mp hc)
  exact hnd nm hnm _ hcnm rfl

theorem build_chars_head (names : List (List Char)) :
    (build_chars names).head? = some boundary := by
  have hmem : boundary ∈ build_chars names :=
    (build_chars_mem names boundary).mpr (Or.inl rfl)
  have hsort := build_chars_sorted names
  cases hbc : build_chars names with
  | nil => rw [hbc] at hmem; cases hmem
  | cons a t =>
    rw [hbc] at hmem hsort
    rcases List.mem_cons.mp hmem with h | h
    · simp [h]
    · rcases List.rel_of_sorted_cons hsort boundary h with h' | ⟨h', _⟩
      · simp [h']
      · exact absurd rfl h'

theorem build_chars_cons (names : List (List Char)) :
    ∃ t, build_chars names = boundary :: t := by
  have hh := build_chars_head names
  cases hbc : build_chars names with
  | nil => rw [hbc] at hh; cases hh
  | cons a t =>
    rw [hbc] at hh
    simp only [List.head?_cons, Option.some.injEq] at hh
    exact ⟨t, by rw [hh]⟩

theorem build_chars_tail_sorted (names : List (List Char))
    (hnd : ∀ nm ∈ names, ∀ c ∈ nm, c ≠ boundary) :
    List.Sorted (· < ·) (build_chars names).tail := by
  obtain ⟨t, ht⟩ := build_chars_cons names
  have hsort := build_chars_sorted names
  have hnodup := build_chars_nodup names hnd
  rw [ht] at hsort hnodup ⊢
  obtain ⟨hb, hndt⟩ := List.nodup_cons.mp hnodup
  have hvle : List.Pairwise vle t := hsort.of_cons
  have hne : List.Pairwise (fun x y : Char => x ≠ y) t := hndt
  show List.Pairwise (· < ·) t
  refine List.Pairwise.imp_of_mem ?_ (hvle.and hne)
  intro x y hx _ hxy
  rcases hxy.1 with h | ⟨_, hle⟩
  · exact absurd h (fun hxb => hb (hxb ▸ hx))
  · exact lt_of_le_of_ne hle hxy.2

theorem char_to_idx_consistency {l : List Char} (hl : l.Nodup) (i : ℕ)
    (hi : i < l.length) : char_to_idx l (l.get ⟨i, hi⟩) = some i := by
  rw [char_to_idx_nodup hl (List.get_mem l i hi), List.get_indexOf hl ⟨i, hi⟩]

/-- C3 (amended): for every corpus whose strings avoid the boundary
character `"."`, the vocabulary built by `build_chars` / `Vocabulary::new`
has no duplicate symbols, contains exactly the corpus characters plus the
boundary, places the boundary first with all other symbols in code-point
order, and its symbol-to-index map inverts the forward sequence. -/
theorem claim3_vocabulary (names : List (List Char))
    (hnd : ∀ nm ∈ names, ∀ c ∈ nm, c ≠ boundary) :
    (build_chars names).Nodup ∧
    (∀ c, c ∈ build_chars names ↔ (c = boundary ∨ ∃ nm ∈ names, c ∈ nm)) ∧
    (build_chars names).head? = some boundary ∧
    List.Sorted (· < ·) (build_chars names).tail ∧
    (∀ (i : ℕ) (hi : i < (build_chars names).length),
      char_to_idx (build_chars names) ((build_chars names).get ⟨i, hi⟩) = some i) :=
  ⟨build_chars_nodup names hnd, build_chars_mem names,
   build_chars_head names, build_chars_tail_sorted names hnd,
   fun i hi => char_to_idx_consistency (build_chars_nodup names hnd) i hi⟩

/-- C3 witness: the amended statement evaluated on the corpus `["ba"]`,
whose vocabulary is `[".", "a", "b"]`. -/
theorem claim3_vocabulary_witness :
    (build_chars [['b', 'a']]).Nodup ∧
    build_chars [['b', 'a']] = ['.', 'a', 'b'] ∧
    char_to_idx (build_chars [['b', 'a']]) 'b' = some 2 :=
  ⟨(claim3_vocabulary [['b', 'a']] (by decide)).1, by decide, by decide⟩

/-- C3 counterexample: on the corpus whose single name is `"."`,
`build_chars` emits the boundary twice — the vocabulary has a duplicate
symbol and its index map disagrees with position `0` of the forward list. -/
theorem claim3_vocabulary_counterexample :
    ¬ (build_chars [[boundary]]).Nodup ∧
    build_chars [[boundary]] = [boundary, boundary] ∧
    char_to_idx (build_chars [[boundary]]) boundary = some 1 :=
  ⟨by decide, by decide, by decide⟩

/-! ### Claim C9: agreement of the two counting strategies -/

theorem tensor_cell_eq_hash {chars : List Char} {names : List (List Char)}
    (hnd : chars.Nodup) (hdot : boundary ∈ chars)
    (hmem : ∀ nm ∈ names, ∀ c ∈ nm, c ∈ chars)
    {a b : Char} (ha : a ∈ chars) (hb : b ∈ chars) :
    tensorCount chars names (List.indexOf a chars) (List.indexOf b chars)
      = compute_bigram_counts names (a, b) := by
  unfold tensorCount compute_bigram_counts
  refine List.countP_congr (fun q hq => ?_)
  obtain ⟨h1, h2⟩ := allBigrams_mem hdot hmem q hq
  simp only [decide_eq_true_eq]
  rw [char_to_idx_nodup hnd h1, char_to_idx_nodup hnd h2]
  constructor
  · rintro ⟨hi, hj⟩
    have e1 := (List.indexOf_inj h1 ha).mp (Option.some_injective _ hi)
    have e2 := (List.indexOf_inj h2 hb).mp (Option.some_injective _ hj)
    obtain ⟨qa, qb⟩ := q
    simp only at e1 e2
    rw [e1, e2]
  · rintro rfl
    exact ⟨rfl, rfl⟩

theorem assocLast_none_key {α β : Type} [DecidableEq α] {l : List (α × β)}
    {a : α} (h : assocLast l a = none) : ∀ e ∈ l, e.1 ≠ a := by
  induction l with
  | nil => intro e he; cases he
  | cons e rest ih =>
    intro x hx
    unfold assocLast at h
    rcases hr : assocLast rest a with _ | w
    · rw [hr] at h
      rcases List.mem_cons.mp hx with hhd | htl
      · subst hhd
        intro hkey
        rw [if_pos hkey.symm] at h
        cases h
      · exact ih hr x htl
    · rw [hr] at h
      cases h

theorem assocLast_some_key {α β : Type} [DecidableEq α] {l : List (α × β)}
    {a : α} {w : β} (h : assocLast l a = some w) :
    ∃ e ∈ l, e.1 = a ∧ e.2 = w := by
  induction l with
  | nil => cases h
  | cons e rest ih =>
    unfold assocLast at h
    rcases hr : assocLast rest a with _ | v
    · rw [hr] at h
      by_cases hkey : a = e.1
      · rw [if_pos hkey] at h
        exact ⟨e, List.mem_cons_self e rest, hkey.symm,
          Option.some_injective _ h⟩
      · rw [if_neg hkey] at h
        cases h
    · rw [hr] at h
      obtain ⟨x, hx, hk, hv⟩ := ih (hr.trans h)
      exact ⟨x, List.mem_cons_of_mem e hx, hk, hv⟩

theorem assocLast_eq_none {α β : Type} [DecidableEq α] {l : List (α × β)}
    {a : α} (h : ∀ e ∈ l, e.1 ≠ a) : assocLast l a = none := by
  cases hres : assocLast l a with
  | none => rfl
  | some w =>
    obtain ⟨e, he, hk, _⟩ := assocLast_some_key hres
    exact absurd hk (h e he)

theorem assocLast_unique {α β : Type} [DecidableEq α] {l : List (α × β)}
    {a : α} {v : β} (huniq : ∀ e ∈ l, e.1 = a → e.2 = v)
    (hex : ∃ e ∈ l, e.1 = a) : assocLast l a = some v := by
  cases hres : assocLast l a with
  | none =>
    obtain ⟨e, he, hkey⟩ := hex
    exact absurd hkey (assocLast_none_key hres e he)
  | some w =>
    obtain ⟨e, he, hkey, hval⟩ := assocLast_some_key hres
    rw [← hval, huniq e he hkey]

theorem mem_sync {chars : List Char} {t : ℕ → ℕ → ℕ}
    {e : (Char × Char) × ℕ} :
    e ∈ sync_counts_from_tensor chars t ↔
      ∃ i j, i < chars.length ∧ j < chars.length ∧ 0 < t i j ∧
        e = ((chars.getD i boundary, chars.getD j boundary), t i j) := by
  unfold sync_counts_from_tensor
  simp only [List.mem_flatMap, List.mem_filterMap, List.mem_range]
  constructor
  · rintro ⟨i, hi, j, hj, he⟩
    by_cases hp : 0 < t i j
    · rw [if_pos hp] at he
      exact ⟨i, j, hi, hj, hp, (Option.some_injective _ he).symm⟩
    · rw [if_neg hp] at he
      cases he
  · rintro ⟨i, j, hi, hj, hp, rfl⟩
    exact ⟨i, hi, j, hj, by rw [if_pos hp]⟩

theorem getD_mem_of_lt {l : List Char} {i : ℕ} (hi : i < l.length) :
    l.getD i boundary ∈ l := by
  rw [List.getD_eq_getElem l boundary hi]
  exact List.getElem_mem hi

theorem countsLookup_sync {chars : List Char} (hnd : chars.Nodup)
    {a b : Char} (ha : a ∈ chars) (hb : b ∈ chars) (t : ℕ → ℕ → ℕ) :
    countsLookup (sync_counts_from_tensor chars t) (a, b)
      = t (List.indexOf a chars) (List.indexOf b chars) := by
  have hia : List.indexOf a chars < chars.length := List.indexOf_lt_length.mpr ha
  have hib : List.indexOf b chars < chars.length := List.indexOf_lt_length.mpr hb
  have hgetA : chars.getD (List.indexOf a chars) boundary = a := by
    rw [List.getD_eq_getElem chars boundary hia]
    exact List.indexOf_get hia
  have hgetB : chars.getD (List.indexOf b chars) boundary = b := by
    rw [List.getD_eq_getElem chars boundary hib]
    exact List.indexOf_get hib
  have hkey : ∀ e ∈ sync_counts_from_tensor chars t, e.1 = (a, b) →
      e.2 = t (List.indexOf a chars) (List.indexOf b chars) := by
    intro e he hk
    obtain ⟨i, j, hi, hj, hp, rfl⟩ := mem_sync.mp he
    simp only [Prod.mk.injEq] at hk
    have hieq : i = List.indexOf a chars := by
      have : chars.get ⟨i, hi⟩ = a := by
        rw [← hk.1, List.getD_eq_getElem chars boundary hi]
        rfl
      rw [← this, List.get_indexOf hnd ⟨i, hi⟩]
    have hjeq : j = List.indexOf b chars := by
      have : chars.get ⟨j, hj⟩ = b := by
        rw [← hk.2, List.getD_eq_getElem chars boundary hj]
        rfl
      rw [← this, List.get_indexOf hnd ⟨j, hj⟩]
    rw [hieq, hjeq]
  by_cases hp : 0 < t (List.indexOf a chars) (List.indexOf b chars)
  · unfold countsLookup
    rw [assocLast_unique hkey ?_]
    · rfl
    · refine ⟨((a, b), t (List.indexOf a chars) (List.indexOf b chars)), ?_, rfl⟩
      rw [mem_sync]
      exact ⟨List.indexOf a chars, List.indexOf b chars, hia, hib, hp,
        by rw [hgetA, hgetB]⟩
  · have hz : t (List.indexOf a chars) (List.indexOf b chars) = 0 := by omega
    unfold countsLookup
    rw [assocLast_eq_none, hz]
    · rfl
    · intro e he hk
      obtain ⟨i, j, hi, hj, hpij, rfl⟩ := mem_sync.mp he
      simp only [Prod.mk.injEq] at hk
      have hieq : i = List.indexOf a chars := by
        have hg : chars.get ⟨i, hi⟩ = a := by
          rw [← hk.1, List.getD_eq_getElem chars boundary hi]
          rfl
        rw [← hg, List.get_indexOf hnd ⟨i, hi⟩]
      have hjeq : j = List.indexOf b chars := by
        have hg : chars.get ⟨j, hj⟩ = b := by
          rw [← hk.2, List.getD_eq_getElem chars boundary hj]
          rfl
        rw [← hg, List.get_indexOf hnd ⟨j, hj⟩]
      rw [hieq, hjeq] at hpij
      omega

theorem countsLookup_sync_notmem {chars : List Char} {t : ℕ → ℕ → ℕ}
    {a b : Char} (h : a ∉ chars ∨ b ∉ chars) :
    countsLookup (sync_counts_from_tensor chars t) (a, b) = 0 := by
  unfold countsLookup
  rw [assocLast_eq_none]
  · rfl
  · intro e he hk
    obtain ⟨i, j, hi, hj, _, rfl⟩ := mem_sync.mp he
    simp only [Prod.mk.injEq] at hk
    rcases h with h | h
    · exact h (hk.1 ▸ getD_mem_of_lt hi)
    · exact h (hk.2 ▸ getD_mem_of_lt hj)

theorem hash_counts_notmem {chars : List Char} {names : List (List Char)}
    (hdot : boundary ∈ chars)
    (hmem : ∀ nm ∈ names, ∀ c ∈ nm, c ∈ chars)
    {a b : Char} (h : a ∉ chars ∨ b ∉ chars) :
    compute_bigram_counts names (a, b) = 0 := by
  unfold compute_bigram_counts
  rw [List.countP_eq_zero]
  intro q hq
  obtain ⟨h1, h2⟩ := allBigrams_mem hdot hmem q hq
  simp only [decide_eq_true_eq]
  rintro rfl
  rcases h with h | h
  · exact h h1
  · exact h h2

/-- C9: for a corpus whose characters are all in the vocabulary, the hashmap
produced by `sync_counts_from_tensor` after `compute_tensor_frequencies`
agrees with the hashmap built by `compute_bigram_counts` at every key, and
every in-range cell of the count tensor equals the hashmap count of the
corresponding symbol pair. -/
theorem claim9_counting_agreement (chars : List Char) (names : List (List Char))
    (hnd : chars.Nodup) (hdot : boundary ∈ chars)
    (hmem : ∀ nm ∈ names, ∀ c ∈ nm, c ∈ chars) :
    (∀ q : Char × Char,
      countsLookup (sync_counts_from_tensor chars (tensorCount chars names)) q
        = compute_bigram_counts names q) ∧
    (∀ (i j : ℕ) (hi : i < chars.length) (hj : j < chars.length),
      tensorCount chars names i j
        = compute_bigram_counts names (chars.get ⟨i, hi⟩, chars.get ⟨j, hj⟩)) := by
  constructor
  · rintro ⟨a, b⟩
    by_cases ha : a ∈ chars
    · by_cases hb : b ∈ chars
      · rw [countsLookup_sync hnd ha hb, tensor_cell_eq_hash hnd hdot hmem ha hb]
      · rw [countsLookup_sync_notmem (Or.inr hb),
          hash_counts_notmem hdot hmem (Or.inr hb)]
    · rw [countsLookup_sync_notmem (Or.inl ha),
        hash_counts_notmem hdot hmem (Or.inl ha)]
  · intro i j hi hj
    have h := tensor_cell_eq_hash hnd hdot hmem
      (List.get_mem chars i hi) (List.get_mem chars j hj)
    rw [List.get_indexOf hnd ⟨i, hi⟩, List.get_indexOf hnd ⟨j, hj⟩] at h
    exact h

/-- C9 witness: on the vocabulary `[".", "a"]` and the corpus `["a"]` the
synchronized hashmap and the directly computed hashmap agree at the key
`(".", "a")`. -/
theorem claim9_counting_agreement_witness :
    countsLookup (sync_counts_from_tensor ['.', 'a'] (tensorCount ['.', 'a'] [['a']]))
        (boundary, 'a')
      = compute_bigram_counts [['a']] (boundary, 'a') :=
  (claim9_counting_agreement ['.', 'a'] [['a']] (by decide) (by decide)
    (by decide)).1 (boundary, 'a')

/-! ### Claim C4: the without-replacement error condition -/

/-- C4 (amended): sampling without replacement fails exactly when the draw
count exceeds the total length of the flattened weight tensor — not the
number of strictly-positive-weight entries — and sampling with replacement
never fails. -/
theorem claim4_without_replacement_error (t : WTensor) (n : ℕ) (us : ℕ → ℚ) :
    ((multinomial t n false us).isOk = false ↔ (flattenAll t).length < n) ∧
    (multinomial t n true us).isOk = true := by
  constructor
  · unfold multinomial
    by_cases h : (flattenAll t).length < n
    · simp [h, Except.isOk, Except.toBool]
    · simp [h, Except.isOk, Except.toBool]
  · rfl

/-- C4 counterexample: the weights `[1, 0]` have exactly one strictly
positive entry, yet drawing `2` samples without replacement succeeds,
because the source compares the draw count against the tensor length `2`. -/
theorem claim4_counterexample :
    positiveCount [(1 : ℚ), 0] = 1 ∧
    (multinomial (.d1 [(1 : ℚ), 0]) 2 false (fun _ => 1/3)).isOk = true := by
  constructor
  · norm_num [positiveCount, List.countP_cons, List.countP_nil]
  · rfl

/-! ### Claim C6: inverse-CDF search -/

theorem cumsumFrom_length (s : ℚ) (p : List ℚ) :
    (cumsumFrom s p).length = p.length := by
  induction p generalizing s with
  | nil => rfl
  | cons x xs ih => simp [cumsumFrom, ih]

theorem cumsumFrom_ge (p : List ℚ) (hp : ∀ x ∈ p, 0 ≤ x) (s : ℚ) :
    ∀ k, k < p.length → s ≤ (cumsumFrom s p).getD k 0 := by
  induction p generalizing s with
  | nil =>
    intro k hk
    simp at hk
  | cons x xs ih =>
    intro k hk
    have hx : 0 ≤ x := hp x (List.mem_cons_self x xs)
    cases k with
    | zero =>
      show s ≤ s + x
      linarith
    | succ m =>
      have hm : m < xs.length := by
        simpa using hk
      have := ih (fun y hy => hp y (List.mem_cons_of_mem x hy)) (s + x) m hm
      calc s ≤ s + x := by linarith
        _ ≤ (cumsumFrom (s + x) xs).getD m 0 := this

theorem cumsumFrom_mono (p : List ℚ) (hp : ∀ x ∈ p, 0 ≤ x) (s : ℚ) :
    ∀ i j, i ≤ j → j < p.length →
      (cumsumFrom s p).getD i 0 ≤ (cumsumFrom s p).getD j 0 := by
  induction p generalizing s with
  | nil =>
    intro i j _ hj
    simp at hj
  | cons x xs ih =>
    intro i j hij hj
    cases i with
    | zero =>
      cases j with
      | zero => exact le_refl _
      | succ m =>
        show (s + x) ≤ (cumsumFrom (s + x) xs).getD m 0
        exact cumsumFrom_ge xs (fun y hy => hp y (List.mem_cons_of_mem x hy))
          (s + x) m (by simpa using hj)
    | succ i' =>
      cases j with
      | zero => omega
      | succ j' =>
        show (cumsumFrom (s + x) xs).getD i' 0 ≤ (cumsumFrom (s + x) xs).getD j' 0
        exact ih (fun y hy => hp y (List.mem_cons_of_mem x hy)) (s + x) i' j'
          (by omega) (by simpa using hj)

theorem cumsumFrom_last (p : List ℚ) : ∀ s : ℚ, p ≠ [] →
    (cumsumFrom s p).getD (p.length - 1) 0 = s + p.sum := by
  induction p with
  | nil =>
    intro s h
    exact absurd rfl h
  | cons x xs ih =>
    intro s _
    cases xs with
    | nil => simp [cumsumFrom]
    | cons y ys =>
      show ((s + x) :: cumsumFrom (s + x) (y :: ys)).getD
          ((x :: y :: ys).length - 1) 0 = s + (x :: y :: ys).sum
      have hlen : (x :: y :: ys).length - 1 = ((y :: ys).length - 1) + 1 := by
        simp
      rw [hlen, List.getD_cons_succ, ih (s + x) (List.cons_ne_nil y ys)]
      simp only [List.sum_cons]
      ring

theorem bsearchGo_succ (cum : List ℚ) (r : ℚ) (fuel left right : ℕ) :
    bsearchGo cum r (fuel + 1) left right =
      if left < right then
        if cum.getD (left + (right - left) / 2) 0 < r then
          bsearchGo cum r fuel (left + (right - left) / 2 + 1) right
        else if r < cum.getD (left + (right - left) / 2) 0 then
          bsearchGo cum r fuel left (left + (right - left) / 2)
        else left + (right - left) / 2
      else left := rfl

theorem bsearchGo_correct (cum : List ℚ) (r : ℚ)
    (mono : ∀ i j, i ≤ j → j < cum.length → cum.getD i 0 ≤ cum.getD j 0)
    (htie : ∀ k, k < cum.length → cum.getD k 0 ≠ r) :
    ∀ (fuel left right : ℕ), left ≤ right → right ≤ cum.length →
      right - left ≤ fuel →
      (∀ j, j < left → cum.getD j 0 < r) →
      (∀ j, right ≤ j → j < cum.length → r < cum.getD j 0) →
      (∀ j, j < bsearchGo cum r fuel left right → cum.getD j 0 < r) ∧
      (∀ j, bsearchGo cum r fuel left right ≤ j → j < cum.length →
        r < cum.getD j 0) ∧
      bsearchGo cum r fuel left right ≤ cum.length := by
  intro fuel
  induction fuel with
  | zero =>
    intro left right hlr hrlen hfuel hleft hright
    have heq : left = right := by omega
    subst heq
    simp only [bsearchGo]
    exact ⟨hleft, fun j hj hjlen => hright j hj hjlen, by omega⟩
  | succ fuel ih =>
    intro left right hlr hrlen hfuel hleft hright
    rw [bsearchGo_succ]
    by_cases hlt : left < right
    · rw [if_pos hlt]
      have hmidlt : left + (right - left) / 2 < right := by omega
      have hmidge : left ≤ left + (right - left) / 2 := by omega
      have hmidlen : left + (right - left) / 2 < cum.length := by omega
      rcases lt_trichotomy (cum.getD (left + (right - left) / 2) 0) r
        with hc | hc | hc
      · rw [if_pos hc]
        refine ih (left + (right - left) / 2 + 1) right (by omega) hrlen
          (by omega) ?_ hright
        intro j hj
        calc cum.getD j 0 ≤ cum.getD (left + (right - left) / 2) 0 :=
              mono j _ (by omega) hmidlen
          _ < r := hc
      · exact absurd hc (htie _ hmidlen)
      · rw [if_neg (by linarith), if_pos hc]
        refine ih left (left + (right - left) / 2) hmidge (by omega) (by omega)
          hleft ?_
        intro j hj hjlen
        calc r < cum.getD (left + (right - left) / 2) 0 := hc
          _ ≤ cum.getD j 0 := mono _ j hj hjlen
    · rw [if_neg hlt]
      have heq : left = right := by omega
      subst heq
      exact ⟨hleft, fun j hj hjlen => hright j hj hjlen, by omega⟩

theorem rustBinarySearch_first (p : List ℚ) (r : ℚ)
    (hp : ∀ x ∈ p, 0 ≤ x) (hr0 : 0 ≤ r) (hrs : r < p.sum)
    (htie : ∀ k, k < p.length → (cumsum p).getD k 0 ≠ r) :
    rustBinarySearch (cumsum p) r < p.length ∧
    r < (cumsum p).getD (rustBinarySearch (cumsum p) r) 0 ∧
    (∀ j, j < rustBinarySearch (cumsum p) r → (cumsum p).getD j 0 < r) := by
  have hlen : (cumsum p).length = p.length := cumsumFrom_length 0 p
  have hmono : ∀ i j, i ≤ j → j < (cumsum p).length →
      (cumsum p).getD i 0 ≤ (cumsum p).getD j 0 := by
    intro i j hij hj
    exact cumsumFrom_mono p hp 0 i j hij (by omega)
  have htie' : ∀ k, k < (cumsum p).length → (cumsum p).getD k 0 ≠ r := by
    intro k hk
    exact htie k (by omega)
  unfold rustBinarySearch
  obtain ⟨hless, hgreater, hle⟩ := bsearchGo_correct (cumsum p) r hmono htie'
    (cumsum p).length 0 (cumsum p).length (by omega) (le_refl _) (by omega)
    (fun j hj => absurd hj (Nat.not_lt_zero j))
    (fun j hj hjlen => absurd hjlen (by omega))
  have hne : p ≠ [] := by
    intro h
    rw [h] at hrs
    simp only [List.sum_nil] at hrs
    linarith
  have hlast : (cumsum p).getD (p.length - 1) 0 = p.sum := by
    have h := cumsumFrom_last p 0 hne
    simpa using h
  have hres : bsearchGo (cumsum p) r (cumsum p).length 0 (cumsum p).length
      < p.length := by
    by_contra hcon
    push_neg at hcon
    have hplen : 0 < p.length := List.length_pos.mpr hne
    have h := hless (p.length - 1) (by omega)
    rw [hlast] at h
    linarith
  refine ⟨hres, ?_, hless⟩
  exact hgreater _ (le_refl _) (by omega)

theorem drawOnce_fst (st : MState) (u : ℚ) (rep : Bool) :
    (drawOnce st u rep).1 = rustBinarySearch st.cum (u * st.total) := by
  unfold drawOnce
  cases rep <;> rfl

/-- C6 (amended): for non-negative weights and a uniform draw
`r = u * total` in `[0, total)` that does not exactly equal any
cumulative-sum entry, one sampling step of `multinomial` returns the lowest
index whose cumulative-sum entry is greater than or equal to `r`; when `r`
exactly equals a cumulative entry the binary search may return a higher tied
index instead of the lowest. -/
theorem claim6_inverse_cdf (p : List ℚ) (u : ℚ) (rep : Bool)
    (hp : ∀ x ∈ p, 0 ≤ x) (hu0 : 0 ≤ u) (hu1 : u < 1) (hs : 0 < p.sum)
    (htie : ∀ k, k < p.length → (cumsum p).getD k 0 ≠ u * p.sum) :
    (drawOnce (initState p) u rep).1 < p.length ∧
    u * p.sum ≤ (cumsum p).getD ((drawOnce (initState p) u rep).1) 0 ∧
    (∀ j, j < (drawOnce (initState p) u rep).1 →
      (cumsum p).getD j 0 < u * p.sum) := by
  have hfst : (drawOnce (initState p) u rep).1
      = rustBinarySearch (cumsum p) (u * p.sum) := by
    rw [drawOnce_fst]
    rfl
  have hr0 : 0 ≤ u * p.sum := mul_nonneg hu0 hs.le
  have hrs : u * p.sum < p.sum := mul_lt_of_lt_one_left hs hu1
  obtain ⟨h1, h2, h3⟩ := rustBinarySearch_first p (u * p.sum) hp hr0 hrs htie
  rw [hfst]
  exact ⟨h1, h2.le, h3⟩

/-- C6 witness: weights `[1/2, 1/2]` with draw `u = 1/3` (so `r = 1/3`)
select an index below `2` whose cumulative entry reaches `r`, with every
earlier cumulative entry below `r`. -/
theorem claim6_inverse_cdf_witness :
    (0 : ℚ) < ([(1 : ℚ)/2, 1/2]).sum ∧
    (drawOnce (initState [(1 : ℚ)/2, 1/2]) (1/3) true).1 < 2 ∧
    (1 : ℚ)/3 * ([(1 : ℚ)/2, 1/2]).sum
      ≤ (cumsum [(1 : ℚ)/2, 1/2]).getD
          ((drawOnce (initState [(1 : ℚ)/2, 1/2]) (1/3) true).1) 0 := by
  have hp : ∀ x ∈ [(1 : ℚ)/2, 1/2], 0 ≤ x := by
    intro x hx
    simp only [List.mem_cons, List.not_mem_nil, or_false] at hx
    rcases hx with rfl | rfl <;> norm_num
  have hs : (0 : ℚ) < ([(1 : ℚ)/2, 1/2]).sum := by
    simp only [List.sum_cons, List.sum_nil]
    norm_num
  have hcum : cumsum [(1 : ℚ)/2, 1/2] = [(1 : ℚ)/2, 1] := by
    simp only [cumsum, cumsumFrom]
    norm_num
  have hsum : ([(1 : ℚ)/2, 1/2]).sum = 1 := by
    simp only [List.sum_cons, List.sum_nil]
    norm_num
  have htie : ∀ k, k < ([(1 : ℚ)/2, 1/2]).length →
      (cumsum [(1 : ℚ)/2, 1/2]).getD k 0 ≠ (1 : ℚ)/3 * ([(1 : ℚ)/2, 1/2]).sum := by
    intro k hk
    rw [hcum, hsum, mul_one]
    simp only [List.length_cons, List.length_nil] at hk
    interval_cases k <;>
      norm_num [List.getD_cons_zero, List.getD_cons_succ]
  have h := claim6_inverse_cdf [(1 : ℚ)/2, 1/2] (1/3) true hp (by norm_num)
    (by norm_num) hs htie
  exact ⟨hs, h.1, h.2.1⟩

/-- C6 counterexample: with weights `[1/2, 0, 1/2]` and the exactly tied
draw `r = 1/2`, the binary search returns index `1` — a zero-weight entry —
although the lowest index whose cumulative entry reaches `r` is `0`. -/
theorem claim6_inverse_cdf_counterexample :
    (drawOnce (initState [(1 : ℚ)/2, 0, 1/2]) (1/2) true).1 = 1 ∧
    (1 : ℚ)/2 * ([(1 : ℚ)/2, 0, 1/2]).sum
      ≤ (cumsum [(1 : ℚ)/2, 0, 1/2]).getD 0 0 := by
  have hsum : ([(1 : ℚ)/2, 0, 1/2]).sum = 1 := by
    simp only [List.sum_cons, List.sum_nil]
    norm_num
  have hcum : cumsum [(1 : ℚ)/2, 0, 1/2] = [(1 : ℚ)/2, 1/2, 1] := by
    simp only [cumsum, cumsumFrom]
    norm_num
  have hbs : rustBinarySearch [(1 : ℚ)/2, 1/2, 1] (1/2) = 1 := by
    show bsearchGo [(1 : ℚ)/2, 1/2, 1] (1/2) 3 0 3 = 1
    rw [show (3 : ℕ) = 2 + 1 from rfl, bsearchGo_succ]
    norm_num [List.getD_cons_zero, List.getD_cons_succ]
  constructor
  · rw [drawOnce_fst]
    show rustBinarySearch (cumsum [(1 : ℚ)/2, 0, 1/2])
        ((1 : ℚ)/2 * ([(1 : ℚ)/2, 0, 1/2]).sum) = 1
    rw [hcum, hsum, mul_one]
    exact hbs
  · rw [hcum, hsum, mul_one]
    norm_num [List.getD_cons_zero]

/-! ### Claim C5: termination of the name-generation loop -/

theorem genName_succ (P : List (List ℚ)) (us : ℕ → ℚ) (fuel : ℕ) :
    genName P us (fuel + 1) =
      if genIx P (us 0) = 0 then some [genIx P (us 0)]
      else (genName P (fun k => us (k + 1)) fuel).map
        (fun out => genIx P (us 0) :: out) := rfl

theorem genName_terminating : ∀ (N : ℕ) (P : List (List ℚ)) (us : ℕ → ℚ),
    genSeq P us N = 0 →
    ∃ out : List ℕ, genName P us (N + 1) = some out ∧ out.length ≤ N + 1 := by
  intro N
  induction N with
  | zero =>
    intro P us h
    have h' : genIx P (us 0) = 0 := h
    refine ⟨[0], ?_, by simp⟩
    rw [genName_succ, if_pos h', h']
  | succ N ihN =>
    intro P us h
    by_cases h0 : genIx P (us 0) = 0
    · refine ⟨[0], ?_, by simp⟩
      rw [genName_succ, if_pos h0, h0]
    · have hsh : genSeq P (fun k => us (k + 1)) N = 0 := h
      obtain ⟨out, hout, hlen⟩ := ihN P (fun k => us (k + 1)) hsh
      refine ⟨genIx P (us 0) :: out, ?_, ?_⟩
      · rw [genName_succ, if_neg h0, hout]
        rfl
      · simp only [List.length_cons]
        omega

theorem genName_none : ∀ (fuel : ℕ) (P : List (List ℚ)) (us : ℕ → ℚ),
    (∀ n, genSeq P us n ≠ 0) → genName P us fuel = none := by
  intro fuel
  induction fuel with
  | zero =>
    intro P us _
    rfl
  | succ fuel ih =>
    intro P us h
    have h0 : genIx P (us 0) ≠ 0 := h 0
    have hsh : ∀ n, genSeq P (fun k => us (k + 1)) n ≠ 0 := fun n => h (n + 1)
    rw [genName_succ, if_neg h0, ih P (fun k => us (k + 1)) hsh]
    rfl

/-- C5 (amended): the generation loop of `examples/bigrams_sample.rs` stops
exactly when the sampled index equals the boundary index `0`; there is no
safety bound in the code.  If some draw samples index `0` at step `N`, the
loop terminates with output of length at most `N + 1` (the boundary token is
pushed before the check); if no draw ever samples index `0` — possible under
a degenerate probability matrix — the loop never terminates. -/
theorem claim5_generation_termination :
    (∀ (P : List (List ℚ)) (us : ℕ → ℚ) (N : ℕ), genSeq P us N = 0 →
      ∃ out : List ℕ, genName P us (N + 1) = some out ∧ out.length ≤ N + 1) ∧
    (∀ (P : List (List ℚ)) (us : ℕ → ℚ), (∀ n, genSeq P us n ≠ 0) →
      ∀ fuel, genName P us fuel = none) :=
  ⟨fun P us N h => genName_terminating N P us h,
   fun P us h fuel => genName_none fuel P us h⟩

theorem bsearch_eval_term : rustBinarySearch [(1 : ℚ), 1, 2, 2] (2/3) = 0 := by
  show bsearchGo [(1 : ℚ), 1, 2, 2] (2/3) 4 0 4 = 0
  rw [show (4 : ℕ) = 3 + 1 from rfl, bsearchGo_succ]
  norm_num [List.getD_cons_zero, List.getD_cons_succ]
  rw [show (3 : ℕ) = 2 + 1 from rfl, bsearchGo_succ]
  norm_num [List.getD_cons_zero, List.getD_cons_succ]
  rw [show (2 : ℕ) = 1 + 1 from rfl, bsearchGo_succ]
  norm_num [List.getD_cons_zero, List.getD_cons_succ]
  rw [show (1 : ℕ) = 0 + 1 from rfl, bsearchGo_succ]
  norm_num

theorem genIx_eval_term : genIx [[(1 : ℚ), 0], [1, 0]] (1/3) = 0 := by
  have hfst : genIx [[(1 : ℚ), 0], [1, 0]] (1/3)
      = rustBinarySearch (cumsum [(1 : ℚ), 0, 1, 0])
          ((1/3) * ([(1 : ℚ), 0, 1, 0]).sum) % 2 := by
    show (drawOnce (initState [(1 : ℚ), 0, 1, 0]) (1/3) true).1 % 2 = _
    rw [drawOnce_fst]
    rfl
  have hsum : ([(1 : ℚ), 0, 1, 0]).sum = 2 := by
    simp only [List.sum_cons, List.sum_nil]
    norm_num
  have hcum : cumsum [(1 : ℚ), 0, 1, 0] = [(1 : ℚ), 1, 2, 2] := by
    simp only [cumsum, cumsumFrom]
    norm_num
  rw [hfst, hsum, hcum, show (1 : ℚ)/3 * 2 = 2/3 by norm_num,
    bsearch_eval_term]

/-- C5 witness: under the probability matrix whose rows put all mass on the
boundary symbol, the first draw samples index `0` and the loop terminates at
once with a one-token output. -/
theorem claim5_generation_termination_witness :
    genSeq [[(1 : ℚ), 0], [1, 0]] (fun _ => 1/3) 0 = 0 ∧
    ∃ out : List ℕ,
      genName [[(1 : ℚ), 0], [1, 0]] (fun _ => 1/3) 1 = some out ∧
      out.length ≤ 1 :=
  ⟨genIx_eval_term,
   claim5_generation_termination.1 [[(1 : ℚ), 0], [1, 0]] (fun _ => 1/3) 0
     genIx_eval_term⟩

theorem bsearch_eval_loop : rustBinarySearch [(0 : ℚ), 1, 1, 2] (2/3) = 1 := by
  show bsearchGo [(0 : ℚ), 1, 1, 2] (2/3) 4 0 4 = 1
  rw [show (4 : ℕ) = 3 + 1 from rfl, bsearchGo_succ]
  norm_num [List.getD_cons_zero, List.getD_cons_succ]
  rw [show (3 : ℕ) = 2 + 1 from rfl, bsearchGo_succ]
  norm_num [List.getD_cons_zero, List.getD_cons_succ]
  rw [show (2 : ℕ) = 1 + 1 from rfl, bsearchGo_succ]
  norm_num [List.getD_cons_zero, List.getD_cons_succ]
  rw [show (1 : ℕ) = 0 + 1 from rfl, bsearchGo_succ]
  norm_num

theorem genIx_eval_loop : genIx [[(0 : ℚ), 1], [0, 1]] (1/3) = 1 := by
  have hfst : genIx [[(0 : ℚ), 1], [0, 1]] (1/3)
      = rustBinarySearch (cumsum [(0 : ℚ), 1, 0, 1])
          ((1/3) * ([(0 : ℚ), 1, 0, 1]).sum) % 2 := by
    show (drawOnce (initState [(0 : ℚ), 1, 0, 1]) (1/3) true).1 % 2 = _
    rw [drawOnce_fst]
    rfl
  have hsum : ([(0 : ℚ), 1, 0, 1]).sum = 2 := by
    simp only [List.sum_cons, List.sum_nil]
    norm_num
  have hcum : cumsum [(0 : ℚ), 1, 0, 1] = [(0 : ℚ), 1, 1, 2] := by
    simp only [cumsum, cumsumFrom]
    norm_num
  rw [hfst, hsum, hcum, show (1 : ℚ)/3 * 2 = 2/3 by norm_num,
    bsearch_eval_loop]

/-- C5 counterexample: under the degenerate probability matrix whose rows
put all mass on the non-boundary symbol, the generation loop never samples
index `0`, so it never terminates — for any bound on the number of
iterations.  The claim that generation always returns a finite string within
a safety bound is therefore false for this code. -/
theorem claim5_generation_counterexample :
    (∀ n, genSeq [[(0 : ℚ), 1], [0, 1]] (fun _ => 1/3) n ≠ 0) ∧
    (∀ fuel, genName [[(0 : ℚ), 1], [0, 1]] (fun _ => 1/3) fuel = none) := by
  have hseq : ∀ n, genSeq [[(0 : ℚ), 1], [0, 1]] (fun _ => 1/3) n ≠ 0 := by
    intro n
    show genIx [[(0 : ℚ), 1], [0, 1]] (1/3) ≠ 0
    rw [genIx_eval_loop]
    omega
  exact ⟨hseq, fun fuel => genName_none fuel _ _ hseq⟩
